import Mathlib

/-!
Verification of the Matcha-TTS text normalization and phonemization pipeline
(`matcha/text/symbols.py` and `matcha/text/cleaners.py`).

Strings are modelled as Lean `String`s; the string-scanning primitives of the
Python code (`str.replace`, the regex substitutions) are embedded as
structurally recursive functions over `List Char`, using an explicit fuel
argument equal to the input length so that every definition reduces in the
kernel.  External collaborators (the espeak phonemizer engine and the
`unidecode` transliterator) are parameters of the pipeline definitions: the
repository treats them as opaque string-to-string capabilities.
-/

set_option maxHeartbeats 1000000
set_option maxRecDepth 10000

namespace Matcha

/-! ### Embedding of `matcha/text/symbols.py` -/

/-- `_pad = "_"` -/
def _pad : String := "_"

/-- `_punctuation = ';:,.!?¡¿—…"«»"" ⟨⟩'` — the file holds the plain ASCII
quotation mark (code 34) at the three quote positions. -/
def _punctuation : List Char := [
  ';', ':', ',', '.', '!', '?', '¡', '¿', '—', '…', Char.ofNat 34, '«',
  '»', Char.ofNat 34, Char.ofNat 34, ' ', '⟨', '⟩']

/-- `_letters = "ABCDEFGHIJKLMNOPQRSTUVWXYZabcdefghijklmnopqrstuvwxyz"` -/
def _letters : List Char := "ABCDEFGHIJKLMNOPQRSTUVWXYZabcdefghijklmnopqrstuvwxyz".data

/-- `_letters_ipa` — the IPA character set, transcribed character by character
from the source; code 39 is the ASCII apostrophe (it occurs twice, around the
combining vertical line below, code 809). -/
def _letters_ipa : List Char := [
  'ɑ', 'ɐ', 'ɒ', 'æ', 'ɓ', 'ʙ', 'β', 'ɔ', 'ɕ', 'ç', 'ɗ', 'ɖ',
  'ð', 'ʤ', 'ə', 'ɘ', 'ɚ', 'ɛ', 'ɜ', 'ɝ', 'ɞ', 'ɟ', 'ʄ', 'ɡ',
  'ɠ', 'ɢ', 'ʛ', 'ɦ', 'ɧ', 'ħ', 'ɥ', 'ʜ', 'ɨ', 'ɪ', 'ʝ', 'ɭ',
  'ɬ', 'ɫ', 'ɮ', 'ʟ', 'ɱ', 'ɯ', 'ɰ', 'ŋ', 'ɳ', 'ɲ', 'ɴ', 'ø',
  'ɵ', 'ɸ', 'θ', 'œ', 'ɶ', 'ʘ', 'ɹ', 'ɺ', 'ɾ', 'ɻ', 'ʀ', 'ʁ',
  'ɽ', 'ʂ', 'ʃ', 'ʈ', 'ʧ', 'ʉ', 'ʊ', 'ʋ', 'ⱱ', 'ʌ', 'ɣ', 'ɤ',
  'ʍ', 'χ', 'ʎ', 'ʏ', 'ʑ', 'ʐ', 'ʒ', 'ʔ', 'ʡ', 'ʕ', 'ʢ', 'ǀ',
  'ǁ', 'ǂ', 'ǃ', 'ˈ', 'ˌ', 'ː', 'ˑ', 'ʼ', 'ʴ', 'ʰ', 'ʱ', 'ʲ',
  'ʷ', 'ˠ', 'ˤ', '˞', '↓', '↑', '→', '↗', '↘', Char.ofNat 39, Char.ofNat 809, Char.ofNat 39,
  'ᵻ', 'ᴀ', 'ᴄ', 'ᴇ', 'ᴋ', 'ᴍ', 'ᴏ', 'ᴘ', 'ᴜ', 'ᴡ', 'ꜰ', 'ꜱ']

/-- `_special_vocals` — the eleven special vocal/non-speech marker symbols. -/
def _special_vocals : List String :=
  ["⟨ᴜʜ⟩", "⟨ᴜᴍ⟩", "⟨ʟᴀᴜɢʜ⟩", "⟨ɢɪɢɢʟᴇ⟩", "⟨ᴄʜᴜᴄᴋʟᴇ⟩", "⟨ꜱɪɢʜ⟩",
   "⟨ᴄᴏᴜɢʜ⟩", "⟨ꜱɴɪꜰꜰʟᴇ⟩", "⟨ɢʀᴏᴀɴ⟩", "⟨ʏᴀᴡɴ⟩", "⟨ɢᴀꜱᴘ⟩"]

/-- `list(...)` over a Python string yields one-character strings. -/
def charStr (c : Char) : String := String.mk [c]

/-- `symbols = [_pad] + list(_punctuation) + list(_letters) + list(_letters_ipa) + _special_vocals` -/
def symbols : List String :=
  [_pad] ++ _punctuation.map charStr ++ _letters.map charStr
    ++ _letters_ipa.map charStr ++ _special_vocals

/-- The spec's `BuildVocabulary()`: the same fixed-order concatenation,
packaged as a function to state determinism (two builds agree). -/
def buildVocabulary : Unit → List String := fun _ =>
  [_pad] ++ _punctuation.map charStr ++ _letters.map charStr
    ++ _letters_ipa.map charStr ++ _special_vocals

/-- `SPACE_ID = symbols.index(" ")` -/
def SPACE_ID : Nat := symbols.indexOf (charStr ' ')

/-- `SPECIAL_VOCAL_MAP` — input tag to output marker symbol (insertion order
of the Python dict). -/
def SPECIAL_VOCAL_MAP : List (String × String) := [
  ("<UH>", "⟨ᴜʜ⟩"),
  ("<UM>", "⟨ᴜᴍ⟩"),
  ("<LAUGH>", "⟨ʟᴀᴜɢʜ⟩"),
  ("<GIGGLE>", "⟨ɢɪɢɢʟᴇ⟩"),
  ("<CHUCKLE>", "⟨ᴄʜᴜᴄᴋʟᴇ⟩"),
  ("<SIGH>", "⟨ꜱɪɢʜ⟩"),
  ("<COUGH>", "⟨ᴄᴏᴜɢʜ⟩"),
  ("<SNIFFLE>", "⟨ꜱɴɪꜰꜰʟᴇ⟩"),
  ("<GROAN>", "⟨ɢʀᴏᴀɴ⟩"),
  ("<YAWN>", "⟨ʏᴀᴡɴ⟩"),
  ("<GASP>", "⟨ɢᴀꜱᴘ⟩")]

example : symbols.length = 202 := by decide
example : symbols.get? 0 = some "_" := by decide
example : SPACE_ID = 16 := by decide

/-! ### Embedding of `matcha/text/cleaners.py` -/

/-- Python `str.replace` on character lists: scan left to right, replacing
each (leftmost, non-overlapping) occurrence of `pat` by `rep`.  The fuel
argument makes the recursion structural; it is instantiated with the length
of the scanned list, which suffices because every step consumes at least one
character.  (The source never calls `replace` with an empty pattern; for an
empty `pat` this scanner copies the input.) -/
def replaceListAux (pat rep : List Char) : Nat → List Char → List Char
  | _, [] => []
  | 0, s => s
  | fuel+1, c :: rest =>
    if pat.isPrefixOf (c :: rest) && !pat.isEmpty then
      rep ++ replaceListAux pat rep fuel ((c :: rest).drop pat.length)
    else
      c :: replaceListAux pat rep fuel rest

/-- `s.replace(pat, rep)` over character lists. -/
def replaceList (pat rep s : List Char) : List Char :=
  replaceListAux pat rep s.length s

/-- `s.replace(pat, rep)` on strings. -/
def pyReplace (s pat rep : String) : String :=
  String.mk (replaceList pat.data rep.data s.data)

/-- Python `s.count(pat)` (non-overlapping occurrence count), with the same
fuel discipline. -/
def countOccurAux (pat : List Char) : Nat → List Char → Nat
  | _, [] => 0
  | 0, _ => 0
  | fuel+1, c :: rest =>
    if pat.isPrefixOf (c :: rest) && !pat.isEmpty then
      countOccurAux pat fuel ((c :: rest).drop pat.length) + 1
    else
      countOccurAux pat fuel rest

/-- `s.count(pat)` on strings. -/
def pyCount (s pat : String) : Nat :=
  countOccurAux pat.data s.data.length s.data

/-- The local `placeholder_map` of `handle_special_vocals`: input tag to
punctuation-based placeholder (insertion order of the Python dict). -/
def placeholder_map : List (String × String) := [
  ("<UH>", " ~UH~ "),
  ("<UM>", " ~UM~ "),
  ("<LAUGH>", " ~LAUGH~ "),
  ("<GIGGLE>", " ~GIGGLE~ "),
  ("<CHUCKLE>", " ~CHUCKLE~ "),
  ("<SIGH>", " ~SIGH~ "),
  ("<COUGH>", " ~COUGH~ "),
  ("<SNIFFLE>", " ~SNIFFLE~ "),
  ("<GROAN>", " ~GROAN~ "),
  ("<YAWN>", " ~YAWN~ "),
  ("<GASP>", " ~GASP~ ")]

/-- `handle_special_vocals(text)`: one pass over the full marker table,
`text = text.replace(original_token, placeholder)` for each entry. -/
def handle_special_vocals (text : String) : String :=
  placeholder_map.foldl (fun t p => pyReplace t p.1 p.2) text

/-- `restoration_map` of `restore_special_symbols_from_placeholders`: a single
combined table holding the English patterns first, then the Polish patterns
(insertion order of the Python dict). -/
def restoration_map : List (String × String) := [
  ("tˈɪldə ˈʌ tˈɪldə", "⟨ᴜʜ⟩"),
  ("tˈɪldə ˈʌm tˈɪldə", "⟨ᴜᴍ⟩"),
  ("tˈɪldə lˈæf tˈɪldə", "⟨ʟᴀᴜɢʜ⟩"),
  ("tˈɪldə ɡˈɪɡəl tˈɪldə", "⟨ɢɪɢɢʟᴇ⟩"),
  ("tˈɪldə tʃˈʌkəl tˈɪldə", "⟨ᴄʜᴜᴄᴋʟᴇ⟩"),
  ("tˈɪldə sˈaɪ tˈɪldə", "⟨ꜱɪɢʜ⟩"),
  ("tˈɪldə kˈɔf tˈɪldə", "⟨ᴄᴏᴜɢʜ⟩"),
  ("tˈɪldə snˈɪfəl tˈɪldə", "⟨ꜱɴɪꜰꜰʟᴇ⟩"),
  ("tˈɪldə ɡrˈoʊn tˈɪldə", "⟨ɢʀᴏᴀɴ⟩"),
  ("tˈɪldə jˈɔːn tˈɪldə", "⟨ʏᴀᴡɴ⟩"),
  ("tˈɪldə ɡˈæsp tˈɪldə", "⟨ɢᴀꜱᴘ⟩"),
  ("tˈɨlda ˈu tˈɨlda", "⟨ᴜʜ⟩"),
  ("tˈɨlda ˈum tˈɨlda", "⟨ᴜᴍ⟩"),
  ("tˈɨlda lˈawk tˈɨlda", "⟨ʟᴀᴜɢʜ⟩"),
  ("tˈɨlda ɡˈiɡɛl tˈɨlda", "⟨ɢɪɢɢʟᴇ⟩"),
  ("tˈɨlda tʃˈakɛl tˈɨlda", "⟨ᴄʜᴜᴄᴋʟᴇ⟩"),
  ("tˈɨlda saɪ tˈɨlda", "⟨ꜱɪɢʜ⟩"),
  ("tˈɨlda kof tˈɨlda", "⟨ᴄᴏᴜɢʜ⟩"),
  ("tˈɨlda snɨfɛl tˈɨlda", "⟨ꜱɴɪꜰꜰʟᴇ⟩"),
  ("tˈɨlda ɡron tˈɨlda", "⟨ɢʀᴏᴀɴ⟩"),
  ("tˈɨlda javn tˈɨlda", "⟨ʏᴀᴡɴ⟩"),
  ("tˈɨlda ɡasp tˈɨlda", "⟨ɢᴀꜱᴘ⟩")]

/-- `restore_special_symbols_from_placeholders(phonemes)`: replace each
expected espeak rendering of the combined table with its marker symbol.
The function takes no language argument; the whole table is applied to
every input. -/
def restore_special_symbols_from_placeholders (phonemes : String) : String :=
  restoration_map.foldl (fun t p => pyReplace t p.1 p.2) phonemes

/-- The per-language decoder described by the spec, for comparison with the
source's `restore_special_symbols_from_placeholders`.  Modelled from the
spec: `DecodeMarkers(phonemizedText, language)` substitutes, for the given
language, the renderings of that language's own restoration table only.  The
English sub-table is the first half of `restoration_map` (the entries under
the source comment `English phoneme patterns`), the Polish sub-table the
second half. -/
def decodeMarkersPerLanguage (language : String) (phonemes : String) : String :=
  let table :=
    if language == "en-us" then restoration_map.take 11
    else if language == "pl" then restoration_map.drop 11
    else []
  table.foldl (fun t p => pyReplace t p.1 p.2) phonemes

example : handle_special_vocals "<UM> a <UM> b <UM>" = " ~UM~  a  ~UM~  b  ~UM~ " := by decide
example : pyCount (handle_special_vocals "<UM> a <UM> b <UM>") " ~UM~ " = 3 := by decide
example : restore_special_symbols_from_placeholders "tˈɨlda lˈawk tˈɨlda" = "⟨ʟᴀᴜɢʜ⟩" := by decide
example : decodeMarkersPerLanguage "en-us" "tˈɨlda lˈawk tˈɨlda" = "tˈɨlda lˈawk tˈɨlda" := by decide
example : restore_special_symbols_from_placeholders "hello" = "hello" := by decide

/-! ### Generic properties of the replacement scanner -/

theorem inf_of_pre {α} {l₁ l₂ : List α} (h : l₁ <+: l₂) : l₁ <:+: l₂ := by
  obtain ⟨t, rfl⟩ := h; exact ⟨[], t, rfl⟩

theorem nil_pre {α} (l : List α) : [] <+: l := ⟨l, rfl⟩

theorem isPrefixOf_true {l₁ l₂ : List Char} : l₁.isPrefixOf l₂ = true ↔ l₁ <+: l₂ :=
  List.isPrefixOf_iff_prefix

theorem inf_of_suf {α} {l₁ l₂ : List α} (h : l₁ <:+ l₂) : l₁ <:+: l₂ := by
  obtain ⟨s, rfl⟩ := h; exact ⟨s, [], by simp⟩

/-- A prefix of `a ++ b` is a prefix of `a`, or is all of `a` followed by a
prefix of `b`. -/
theorem prefix_append_split {α} {u a b : List α} (h : u <+: a ++ b) :
    u <+: a ∨ ∃ u₂, u = a ++ u₂ ∧ u₂ <+: b := by
  induction a generalizing u with
  | nil => exact Or.inr ⟨u, rfl, h⟩
  | cons x a' ih =>
    cases u with
    | nil => exact Or.inl (nil_pre _)
    | cons y u' =>
      rw [List.cons_append, List.cons_prefix_cons] at h
      obtain ⟨rfl, h'⟩ := h
      rcases ih h' with h₂ | ⟨u₂, rfl, h₂⟩
      · exact Or.inl (List.cons_prefix_cons.mpr ⟨rfl, h₂⟩)
      · exact Or.inr ⟨u₂, rfl, h₂⟩

/-- An infix of `a ++ b` lies inside `a`, lies inside `b`, or spans the
boundary as a nonempty suffix of `a` followed by a nonempty prefix of `b`. -/
theorem infix_append_split {α} {u a b : List α} (h : u <:+: a ++ b) :
    u <:+: a ∨ u <:+: b ∨
      ∃ u₁ u₂, u = u₁ ++ u₂ ∧ u₁ ≠ [] ∧ u₂ ≠ [] ∧ u₁ <:+ a ∧ u₂ <+: b := by
  induction a generalizing u with
  | nil => exact Or.inr (Or.inl (by simpa using h))
  | cons x a' ih =>
    rw [List.cons_append, List.infix_cons_iff] at h
    rcases h with h | h
    · cases u with
      | nil => exact Or.inl (inf_of_pre (nil_pre _))
      | cons y u' =>
        rw [List.cons_prefix_cons] at h
        obtain ⟨rfl, h'⟩ := h
        rcases prefix_append_split h' with h₂ | ⟨u₂, rfl, h₂⟩
        · exact Or.inl (inf_of_pre (List.cons_prefix_cons.mpr ⟨rfl, h₂⟩))
        · rcases eq_or_ne u₂ [] with rfl | hne
          · exact Or.inl (by simp)
          · exact Or.inr (Or.inr ⟨y :: a', u₂, by simp, by simp, hne, List.suffix_rfl, h₂⟩)
    · rcases ih h with h₂ | h₂ | ⟨u₁, u₂, rfl, h1, h2, h3, h4⟩
      · exact Or.inl (List.infix_cons h₂)
      · exact Or.inr (Or.inl h₂)
      · exact Or.inr (Or.inr ⟨u₁, u₂, rfl, h1, h2, h3.trans (List.suffix_cons x a'), h4⟩)

/-- Separation of a replacement string `rep` from a pattern `u`: `rep` is
nonempty, its first and last characters do not occur in `u`, and `u` does not
occur inside `rep`.  Under this condition an inserted replacement block can
neither contain nor border an occurrence of `u`. -/
def Sep (rep u : List Char) : Prop :=
  rep ≠ [] ∧ (∀ a, a ∈ rep.head? → a ∉ u) ∧
    (∀ b, b ∈ rep.getLast? → b ∉ u) ∧ ¬ u <:+: rep

instance (rep u : List Char) : Decidable (Sep rep u) := by
  unfold Sep; infer_instance

/-- If the pattern does not occur in the input, the scanner copies it. -/
theorem replaceListAux_id {pat rep : List Char} :
    ∀ fuel s, ¬ pat <:+: s → replaceListAux pat rep fuel s = s := by
  intro fuel
  induction fuel with
  | zero => intro s _; cases s <;> rfl
  | succ f ih =>
    intro s h
    cases s with
    | nil => rfl
    | cons c rest =>
      rw [replaceListAux]
      have hnp : ¬ (pat.isPrefixOf (c :: rest) && !pat.isEmpty) = true := by
        intro hb
        simp only [Bool.and_eq_true] at hb
        exact h (inf_of_pre (isPrefixOf_true.mp hb.1))
      rw [if_neg hnp]
      exact congrArg (c :: ·) (ih rest (fun hi => h (List.infix_cons hi)))

/-- A nonempty pattern avoiding the first character of `rep` that is a prefix
of the scanner's output is a prefix of the input. -/
theorem replaceListAux_pre_rev {pat rep : List Char} (hrep : rep ≠ []) :
    ∀ fuel s u, s.length ≤ fuel → u ≠ [] → (∀ a, a ∈ rep.head? → a ∉ u) →
      u <+: replaceListAux pat rep fuel s → u <+: s := by
  intro fuel
  induction fuel with
  | zero =>
    intro s u hlen _ _ hpre
    have hs : s = [] := List.length_eq_zero.mp (Nat.le_zero.mp hlen)
    subst hs
    simpa [replaceListAux] using hpre
  | succ f ih =>
    intro s u hlen hu hhd hpre
    cases s with
    | nil => simpa [replaceListAux] using hpre
    | cons c rest =>
      have hlen' : rest.length ≤ f := by
        simpa [List.length_cons] using Nat.succ_le_succ_iff.mp hlen
      rw [replaceListAux] at hpre
      by_cases hb : (pat.isPrefixOf (c :: rest) && !pat.isEmpty) = true
      · rw [if_pos hb] at hpre
        exfalso
        cases u with
        | nil => exact hu rfl
        | cons y u' =>
          cases rep with
          | nil => exact hrep rfl
          | cons rh rt =>
            rw [List.cons_append, List.cons_prefix_cons] at hpre
            obtain ⟨rfl, -⟩ := hpre
            exact hhd y (by simp) (by simp)
      · rw [if_neg hb] at hpre
        cases u with
        | nil => exact absurd rfl hu
        | cons y u' =>
          rw [List.cons_prefix_cons] at hpre
          obtain ⟨rfl, h'⟩ := hpre
          rcases eq_or_ne u' [] with rfl | hne
          · exact List.cons_prefix_cons.mpr ⟨rfl, nil_pre _⟩
          · exact List.cons_prefix_cons.mpr ⟨rfl,
              ih rest u' hlen' hne (fun a ha hmem => hhd a ha (List.mem_cons_of_mem _ hmem)) h'⟩

/-- A nonempty suffix of `w` ends in `w`'s last character. -/
theorem last_mem_of_suf {α} {u w : List α} (h : u <:+ w) (hu : u ≠ [])
    {b : α} (hb : b ∈ w.getLast?) : b ∈ u := by
  have hw : w ≠ [] := h.ne_nil hu
  rw [List.getLast?_eq_getLast w hw] at hb
  have heq := h.getLast hu
  have : b = u.getLast hu := by
    rw [heq]; exact (Option.some_inj.mp hb).symm
  subst this
  exact List.getLast_mem hu

/-- The scanner never creates an occurrence of a pattern `u` separated from
the replacement string: an occurrence of `u` in the output comes from an
occurrence in the input. -/
theorem replaceListAux_inf_rev {pat rep u : List Char} (hsep : Sep rep u) (hu : u ≠ []) :
    ∀ fuel s, s.length ≤ fuel → u <:+: replaceListAux pat rep fuel s → u <:+: s := by
  obtain ⟨hrep, hhd, hlast, hninf⟩ := hsep
  intro fuel
  induction fuel with
  | zero =>
    intro s hlen h
    have hs : s = [] := List.length_eq_zero.mp (Nat.le_zero.mp hlen)
    subst hs
    simpa [replaceListAux] using h
  | succ f ih =>
    intro s hlen h
    cases s with
    | nil => simpa [replaceListAux] using h
    | cons c rest =>
      have hlen' : rest.length ≤ f := by
        simpa [List.length_cons] using Nat.succ_le_succ_iff.mp hlen
      rw [replaceListAux] at h
      by_cases hb : (pat.isPrefixOf (c :: rest) && !pat.isEmpty) = true
      · rw [if_pos hb] at h
        rcases infix_append_split h with h₁ | h₁ | ⟨u₁, u₂, rfl, hne₁, hne₂, hsuf, -⟩
        · exact absurd h₁ hninf
        · have hplen : 1 ≤ pat.length := by
            simp only [Bool.and_eq_true] at hb
            cases pat with
            | nil => simp [List.isEmpty] at hb
            | cons _ _ => simp
          have hdlen : ((c :: rest).drop pat.length).length ≤ f := by
            rw [List.length_drop]
            simp only [List.length_cons]
            omega
          exact (ih _ hdlen h₁).trans (inf_of_suf (List.drop_suffix _ _))
        · exfalso
          cases hg : rep.getLast? with
          | none =>
            rw [List.getLast?_eq_getLast rep hrep] at hg
            exact Option.noConfusion hg
          | some b =>
            exact hlast b (by rw [hg]; rfl)
              (List.mem_append.mpr (Or.inl (last_mem_of_suf hsuf hne₁ (by rw [hg]; rfl))))
      · rw [if_neg hb] at h
        rcases List.infix_cons_iff.mp h with h₁ | h₁
        · cases u with
          | nil => exact absurd rfl hu
          | cons y u' =>
            rw [List.cons_prefix_cons] at h₁
            obtain ⟨rfl, h'⟩ := h₁
            rcases eq_or_ne u' [] with rfl | hne
            · exact inf_of_pre (List.cons_prefix_cons.mpr ⟨rfl, nil_pre _⟩)
            · exact inf_of_pre (List.cons_prefix_cons.mpr ⟨rfl,
                replaceListAux_pre_rev hrep f rest u' hlen' hne
                  (fun a ha hmem => hhd a ha (List.mem_cons_of_mem _ hmem)) h'⟩)
        · exact List.infix_cons (ih rest hlen' h₁)

/-- After the scanner runs, its own (nonempty, separated) pattern no longer
occurs in the output. -/
theorem replaceListAux_no_pat {pat rep : List Char} (hsep : Sep rep pat) (hp : pat ≠ []) :
    ∀ fuel s, s.length ≤ fuel → ¬ pat <:+: replaceListAux pat rep fuel s := by
  obtain ⟨hrep, hhd, hlast, hninf⟩ := hsep
  intro fuel
  induction fuel with
  | zero =>
    intro s hlen h
    have hs : s = [] := List.length_eq_zero.mp (Nat.le_zero.mp hlen)
    subst hs
    rw [replaceListAux] at h
    exact hp (List.infix_nil.mp h)
  | succ f ih =>
    intro s hlen h
    cases s with
    | nil =>
      rw [replaceListAux] at h
      exact hp (List.infix_nil.mp h)
    | cons c rest =>
      have hlen' : rest.length ≤ f := by
        simpa [List.length_cons] using Nat.succ_le_succ_iff.mp hlen
      rw [replaceListAux] at h
      by_cases hb : (pat.isPrefixOf (c :: rest) && !pat.isEmpty) = true
      · rw [if_pos hb] at h
        rcases infix_append_split h with h₁ | h₁ | ⟨u₁, u₂, he, hne₁, hne₂, hsuf, -⟩
        · exact absurd h₁ hninf
        · have hplen : 1 ≤ pat.length := by
            cases pat with
            | nil => exact absurd rfl hp
            | cons _ _ => simp
          have hdlen : ((c :: rest).drop pat.length).length ≤ f := by
            rw [List.length_drop]
            simp only [List.length_cons]
            omega
          exact ih _ hdlen h₁
        · cases hg : rep.getLast? with
          | none =>
            rw [List.getLast?_eq_getLast rep hrep] at hg
            exact Option.noConfusion hg
          | some b =>
            exact hlast b (by rw [hg]; rfl)
              (he ▸ List.mem_append.mpr (Or.inl (last_mem_of_suf hsuf hne₁ (by rw [hg]; rfl))))
      · rw [if_neg hb] at h
        have hnpre : ¬ pat <+: (c :: rest) := by
          intro hp'
          apply hb
          simp only [Bool.and_eq_true]
          refine ⟨isPrefixOf_true.mpr hp', ?_⟩
          cases pat with
          | nil => exact absurd rfl hp
          | cons _ _ => simp [List.isEmpty]
        rcases List.infix_cons_iff.mp h with h₁ | h₁
        · cases pat with
          | nil => exact hp rfl
          | cons y p' =>
            rw [List.cons_prefix_cons] at h₁
            obtain ⟨rfl, h'⟩ := h₁
            rcases eq_or_ne p' [] with rfl | hne
            · exact hnpre (List.cons_prefix_cons.mpr ⟨rfl, nil_pre _⟩)
            · exact hnpre (List.cons_prefix_cons.mpr ⟨rfl,
                replaceListAux_pre_rev hrep f rest p' hlen' hne
                  (fun a ha hmem => hhd a ha (List.mem_cons_of_mem _ hmem)) h'⟩)
        · exact ih rest hlen' h₁

/-- `replaceList` specializations of the scanner lemmas. -/
theorem replaceList_id {pat rep s : List Char} (h : ¬ pat <:+: s) :
    replaceList pat rep s = s :=
  replaceListAux_id _ _ h

theorem replaceList_inf_rev {pat rep u s : List Char} (hsep : Sep rep u) (hu : u ≠ [])
    (h : u <:+: replaceList pat rep s) : u <:+: s :=
  replaceListAux_inf_rev hsep hu _ s (Nat.le_refl _) h

theorem replaceList_no_pat {pat rep : List Char} (hsep : Sep rep pat) (hp : pat ≠ [])
    (s : List Char) : ¬ pat <:+: replaceList pat rep s :=
  replaceListAux_no_pat hsep hp _ s (Nat.le_refl _)

/-! ### Folding a replacement table over a string -/

/-- One pass over a whole `(pattern, replacement)` table, as both
`handle_special_vocals` and `restore_special_symbols_from_placeholders`
perform it. -/
def tableFold (table : List (String × String)) (text : String) : String :=
  table.foldl (fun t p => pyReplace t p.1 p.2) text

theorem handle_special_vocals_eq_tableFold (text : String) :
    handle_special_vocals text = tableFold placeholder_map text := rfl

theorem restore_eq_tableFold (phonemes : String) :
    restore_special_symbols_from_placeholders phonemes = tableFold restoration_map phonemes := rfl

theorem pyReplace_data (s pat rep : String) :
    (pyReplace s pat rep).data = replaceList pat.data rep.data s.data := rfl

/-- A pattern table is well separated when all patterns are nonempty and every
replacement string of the table is separated from every pattern of the
table. -/
def GoodTable (table : List (String × String)) : Prop :=
  ∀ p ∈ table, p.1.data ≠ [] ∧ ∀ q ∈ table, Sep q.2.data p.1.data

instance (table : List (String × String)) : Decidable (GoodTable table) := by
  unfold GoodTable; infer_instance

/-- A table pass whose replacements are all separated from `u` cannot create
an occurrence of `u`. -/
theorem tableFold_preserve (u : List Char) (hu : u ≠ []) :
    ∀ (table : List (String × String)), (∀ q ∈ table, Sep q.2.data u) →
      ∀ text : String, ¬ u <:+: text.data → ¬ u <:+: (tableFold table text).data := by
  intro table
  induction table with
  | nil => intro _ text h; exact h
  | cons q rest ih =>
    intro hsep text h
    have h' : ¬ u <:+: (pyReplace text q.1 q.2).data := by
      intro hocc
      exact h (replaceList_inf_rev (hsep q (List.mem_cons_self _ _)) hu hocc)
    exact ih (fun r hr => hsep r (List.mem_cons_of_mem _ hr)) _ h'

/-- After one pass over a well-separated table, no pattern of the table
occurs in the output any more. -/
theorem tableFold_no_pat :
    ∀ (table : List (String × String)), GoodTable table →
      ∀ (text : String) (p : String × String), p ∈ table →
        ¬ p.1.data <:+: (tableFold table text).data := by
  intro table
  induction table with
  | nil => intro _ _ p hp; exact absurd hp (List.not_mem_nil p)
  | cons q rest ih =>
    intro hgood text p hp
    have hq := hgood q (List.mem_cons_self _ _)
    rcases List.mem_cons.mp hp with rfl | hp'
    · have h0 : ¬ p.1.data <:+: (pyReplace text p.1 p.2).data :=
        replaceList_no_pat (hq.2 p (List.mem_cons_self _ _)) hq.1 _
      exact tableFold_preserve p.1.data hq.1 rest
        (fun r hr => (hgood p (List.mem_cons_self _ _)).2 r (List.mem_cons_of_mem _ hr)) _ h0
    · have hgood' : GoodTable rest := fun r hr =>
        ⟨(hgood r (List.mem_cons_of_mem _ hr)).1,
         fun r' hr' => (hgood r (List.mem_cons_of_mem _ hr)).2 r' (List.mem_cons_of_mem _ hr')⟩
      exact ih hgood' _ p hp'

/-- A table pass leaves a string without any table pattern unchanged. -/
theorem tableFold_id :
    ∀ (table : List (String × String)) (text : String),
      (∀ p ∈ table, ¬ p.1.data <:+: text.data) → tableFold table text = text := by
  intro table
  induction table with
  | nil => intro text _; rfl
  | cons q rest ih =>
    intro text h
    have h0 : pyReplace text q.1 q.2 = text := by
      unfold pyReplace
      rw [replaceList_id (h q (List.mem_cons_self _ _))]
    show tableFold rest (pyReplace text q.1 q.2) = text
    rw [h0]
    exact ih text (fun p hp => h p (List.mem_cons_of_mem _ hp))

/-- C5: `handle_special_vocals` replaces all occurrences: for every input and
every configured tag of the marker table, no occurrence of the tag string
remains in the output, and the concrete input holding the tag `<UM>` three
times yields three occurrences of the placeholder ` ~UM~ `. -/
theorem claim_C5 :
    (∀ (text : String), ∀ p ∈ placeholder_map,
      ¬ p.1.data <:+: (handle_special_vocals text).data)
    ∧ pyCount (handle_special_vocals "<UM> a <UM> b <UM>") " ~UM~ " = 3 := by
  refine ⟨fun text p hp => ?_, by decide⟩
  rw [handle_special_vocals_eq_tableFold]
  exact tableFold_no_pat placeholder_map (by decide) text p hp

/-- Witness for C5 at a concrete input: the tag `<UH>` does not survive
`handle_special_vocals`. -/
theorem claim_C5_witness :
    ¬ "<UH>".data <:+: (handle_special_vocals "a <UH> b <UH>").data :=
  claim_C5.1 "a <UH> b <UH>" ("<UH>", " ~UH~ ") (by decide)

/-- C2 counterexample: decoding is not language-selective.  The source's
`restore_special_symbols_from_placeholders` takes no language argument and
substitutes the patterns of both languages: it rewrites the Polish rendering
of `~LAUGH~` as well as the English one, whereas the spec's per-language
decoder for English leaves the Polish rendering untouched. -/
theorem claim_C2_counterexample :
    restore_special_symbols_from_placeholders "tˈɨlda lˈawk tˈɨlda" = "⟨ʟᴀᴜɢʜ⟩"
    ∧ restore_special_symbols_from_placeholders "tˈɪldə lˈæf tˈɪldə" = "⟨ʟᴀᴜɢʜ⟩"
    ∧ decodeMarkersPerLanguage "en-us" "tˈɨlda lˈawk tˈɨlda" = "tˈɨlda lˈawk tˈɨlda"
    ∧ restore_special_symbols_from_placeholders "tˈɨlda lˈawk tˈɨlda"
        ≠ decodeMarkersPerLanguage "en-us" "tˈɨlda lˈawk tˈɨlda" := by
  refine ⟨by decide, by decide, by decide, by decide⟩

/-- C2 amended: the decoder takes only the phonemized text and substitutes
every known phonemized-placeholder rendering of the single combined
(English and Polish) restoration table with its output symbol, via literal
substring replacement over the full table, regardless of language: no
pattern of the combined table remains in the output. -/
theorem claim_C2_amended :
    ∀ (phonemes : String), ∀ p ∈ restoration_map,
      ¬ p.1.data <:+: (restore_special_symbols_from_placeholders phonemes).data := by
  intro phonemes p hp
  rw [restore_eq_tableFold]
  exact tableFold_no_pat restoration_map (by decide) phonemes p hp

/-- Witness for C2's amended theorem at a concrete input: the English laugh
pattern does not survive decoding. -/
theorem claim_C2_amended_witness :
    ¬ "tˈɪldə lˈæf tˈɪldə".data <:+:
      (restore_special_symbols_from_placeholders "I tˈɪldə lˈæf tˈɪldə go").data :=
  claim_C2_amended "I tˈɪldə lˈæf tˈɪldə go" ("tˈɪldə lˈæf tˈɪldə", "⟨ʟᴀᴜɢʜ⟩") (by decide)

/-- C7: marker restoration degrades softly — it is a total function and, on
any input in which no restoration pattern occurs verbatim, it returns its
input unchanged (unmatched fragments are left untransformed). -/
theorem claim_C7 :
    ∀ (phonemes : String),
      (∀ p ∈ restoration_map, ¬ p.1.data <:+: phonemes.data) →
      restore_special_symbols_from_placeholders phonemes = phonemes := by
  intro phonemes h
  rw [restore_eq_tableFold]
  exact tableFold_id restoration_map phonemes h

/-- Witness for C7 at a concrete input containing none of the restoration
patterns. -/
theorem claim_C7_witness :
    restore_special_symbols_from_placeholders "həloʊ wˈɜːld" = "həloʊ wˈɜːld" :=
  claim_C7 "həloʊ wˈɜːld" (by decide)

/-! ### Whitespace and bracket cleanup (`collapse_whitespace`, `remove_brackets`) -/

/-- The characters matched by Python's (Unicode) regex class `\s`. -/
def pyIsSpace (c : Char) : Bool :=
  [Char.ofNat 9, Char.ofNat 10, Char.ofNat 11, Char.ofNat 12, Char.ofNat 13,
   Char.ofNat 28, Char.ofNat 29, Char.ofNat 30, Char.ofNat 31, ' ',
   Char.ofNat 133, Char.ofNat 160, Char.ofNat 0x1680,
   Char.ofNat 0x2000, Char.ofNat 0x2001, Char.ofNat 0x2002, Char.ofNat 0x2003,
   Char.ofNat 0x2004, Char.ofNat 0x2005, Char.ofNat 0x2006, Char.ofNat 0x2007,
   Char.ofNat 0x2008, Char.ofNat 0x2009, Char.ofNat 0x200A,
   Char.ofNat 0x2028, Char.ofNat 0x2029, Char.ofNat 0x202F,
   Char.ofNat 0x205F, Char.ofNat 0x3000].contains c

/-- `re.sub(r"\s+", " ", text)`: each maximal run of whitespace characters
becomes a single space.  The Boolean flag records whether the scanner is
inside a whitespace run (a space has already been emitted for it). -/
def collapseGo (inRun : Bool) : List Char → List Char
  | [] => []
  | c :: rest =>
    if pyIsSpace c then
      if inRun then collapseGo true rest else ' ' :: collapseGo true rest
    else
      c :: collapseGo false rest

/-- `collapse_whitespace(text) = re.sub(_whitespace_re, " ", text)`. -/
def collapse_whitespace (text : String) : String :=
  String.mk (collapseGo false text.data)

/-- The characters matched by `_brackets_re`: the square brackets, the
parentheses and the curly braces (codes 123 and 125). -/
def isBracketChar (c : Char) : Bool :=
  ['[', ']', '(', ')', Char.ofNat 123, Char.ofNat 125].contains c

/-- `remove_brackets(text) = re.sub(_brackets_re, "", text)`. -/
def remove_brackets (text : String) : String :=
  String.mk (text.data.filter (fun c => !isBracketChar c))

theorem collapseGo_twice :
    ∀ s : List Char,
      collapseGo false (collapseGo false s) = collapseGo false s
      ∧ collapseGo false (collapseGo true s) = collapseGo true s
      ∧ collapseGo true (collapseGo true s) = collapseGo true s := by
  intro s
  induction s with
  | nil => exact ⟨rfl, rfl, rfl⟩
  | cons c rest ih =>
    obtain ⟨ih₁, ih₂, ih₃⟩ := ih
    by_cases hc : pyIsSpace c = true
    · refine ⟨?_, ?_, ?_⟩ <;>
        simp only [collapseGo, hc, if_pos, if_true, Bool.true_eq_false, if_false] <;>
        simp [collapseGo, pyIsSpace, ih₂, ih₃]
    · refine ⟨?_, ?_, ?_⟩ <;>
        simp only [collapseGo, hc, Bool.false_eq_true, if_false] <;>
        simp [collapseGo, hc, ih₁]

/-- C8: both cleanup transforms are idempotent: collapsing whitespace twice
equals collapsing it once, and removing brackets twice equals removing them
once, for every input string. -/
theorem claim_C8 :
    ∀ s : String,
      collapse_whitespace (collapse_whitespace s) = collapse_whitespace s
      ∧ remove_brackets (remove_brackets s) = remove_brackets s := by
  intro s
  constructor
  · show String.mk (collapseGo false (collapseGo false s.data))
        = String.mk (collapseGo false s.data)
    exact congrArg String.mk (collapseGo_twice s.data).1
  · show String.mk ((s.data.filter (fun c => !isBracketChar c)).filter (fun c => !isBracketChar c))
        = String.mk (s.data.filter (fun c => !isBracketChar c))
    refine congrArg String.mk ?_
    rw [List.filter_filter]
    simp [Bool.and_self]

/-! ### Vocabulary claims -/

/-- C1 counterexample: the built symbol vocabulary does contain duplicate
entries.  The ASCII quotation mark, listed three times in `_punctuation`,
occupies the distinct positions 11, 14 and 15, and the ASCII apostrophe,
listed twice in `_letters_ipa`, occupies positions 176 and 178; no
construction-time assertion exists in the source to prevent this. -/
theorem claim_C1_counterexample :
    (11 : Nat) ≠ 14
    ∧ symbols.get? 11 = symbols.get? 14
    ∧ symbols.get? 11 = some (charStr (Char.ofNat 34))
    ∧ symbols.get? 176 = symbols.get? 178
    ∧ symbols.get? 176 = some (charStr (Char.ofNat 39))
    ∧ ¬ symbols.Nodup := by
  refine ⟨by decide, by decide, by decide, by decide, by decide, by decide⟩

/-- C1 amended: vocabulary uniqueness fails exactly at the quotation-mark
and apostrophe entries: the quotation mark occurs three times and the
apostrophe twice, and after discarding those two character values the
remaining ordered sequence is duplicate-free. -/
theorem claim_C1_amended :
    symbols.count (charStr (Char.ofNat 34)) = 3
    ∧ symbols.count (charStr (Char.ofNat 39)) = 2
    ∧ (symbols.filter
        (fun s => !(s == charStr (Char.ofNat 34) || s == charStr (Char.ofNat 39)))).Nodup := by
  refine ⟨by decide, by decide, by decide⟩

/-- C6: vocabulary construction is pure and deterministic with a fixed
order: the ordered sequence is exactly the pad symbol first (id 0), then the
punctuation set, then the Latin letters, then the IPA set, then the
special-vocal marker symbols; two builds yield identical sequences (hence
identical id assignments). -/
theorem claim_C6 :
    (∀ u v : Unit, buildVocabulary u = buildVocabulary v)
    ∧ symbols = buildVocabulary ()
    ∧ symbols = [_pad] ++ _punctuation.map charStr ++ _letters.map charStr
        ++ _letters_ipa.map charStr ++ _special_vocals
    ∧ symbols.get? 0 = some _pad
    ∧ symbols.indexOf _pad = 0 := by
  exact ⟨fun _ _ => rfl, rfl, rfl, by decide, by decide⟩

/-- C10: every special-vocal output symbol (the values of `SPECIAL_VOCAL_MAP`
and of `restoration_map`) is an element of `symbols`, and so is every
individual character of each such symbol, so per-character id lookup on
restored marker text always succeeds. -/
theorem claim_C10 :
    (SPECIAL_VOCAL_MAP.all (fun p =>
      symbols.contains p.2 && p.2.data.all (fun c => symbols.contains (charStr c)))) = true
    ∧ (restoration_map.all (fun p =>
      symbols.contains p.2 && p.2.data.all (fun c => symbols.contains (charStr c)))) = true := by
  refine ⟨by decide, by decide⟩

/-! ### Embedding of the phonemizer backend pool

`phonemizer.backend.EspeakBackend` is external; a backend handle is modelled
by its configuration plus a construction serial number, so that two
separately constructed handles are distinct values (distinct identity). -/

/-- A constructed `EspeakBackend` handle. -/
structure Backend where
  id : Nat
  language : String
  preserve_punctuation : Bool
  with_stress : Bool
  language_switch : String
  deriving DecidableEq, Repr

/-- The module-level mutable state: the `global_phonemizers` dict (an
insertion-ordered association list) together with the serial number of the
next backend construction. -/
structure PoolState where
  cache : List (String × Backend)
  next : Nat
  deriving DecidableEq, Repr

/-- The cache key: the cleaner name, an underscore and the process id
(an f-string in the source). -/
def processKey (cleaner_name : String) (pid : Nat) : String :=
  cleaner_name ++ "_" ++ toString pid

/-- Dict lookup in the cache. -/
def lookupKey (cache : List (String × Backend)) (k : String) : Option Backend :=
  (cache.find? (fun p => p.1 == k)).map (fun p => p.2)

/-- `phonemizer.backend.EspeakBackend(language=..., preserve_punctuation=True,
with_stress=True, language_switch="remove-flags", logger=...)`. -/
def mkBackend (serial : Nat) (language : String) : Backend :=
  { id := serial, language := language, preserve_punctuation := true,
    with_stress := true, language_switch := "remove-flags" }

/-- `get_or_create_phonemizer(language, cleaner_name)`: the cache key is
built from the cleaner name and the process id only; on a miss a new backend
is constructed from `language` and stored, on a hit the cached handle is
returned unchanged. -/
def get_or_create_phonemizer (language cleaner_name : String) (pid : Nat)
    (st : PoolState) : Backend × PoolState :=
  let key := processKey cleaner_name pid
  match lookupKey st.cache key with
  | some b => (b, st)
  | none =>
    let b := mkBackend st.next language
    (b, { cache := st.cache ++ [(key, b)], next := st.next + 1 })

/-- The module-initialization state: the backward-compatibility entry
`global_phonemizers["english_cleaners2"]` holding an `en-us` backend. -/
def initPool : PoolState :=
  { cache := [("english_cleaners2", mkBackend 0 "en-us")], next := 1 }

/-- Pool invariant: every cached handle's serial number is below the next
serial, and cached serial numbers are pairwise distinct. -/
def PoolInv (st : PoolState) : Prop :=
  (∀ p ∈ st.cache, p.2.id < st.next)
  ∧ st.cache.Pairwise (fun p q => p.2.id ≠ q.2.id)

instance (st : PoolState) : Decidable (PoolInv st) := by
  haveI : Decidable (st.cache.Pairwise (fun p q => p.2.id ≠ q.2.id)) :=
    List.instDecidablePairwise _
  unfold PoolInv
  infer_instance

theorem lookupKey_append (c₁ c₂ : List (String × Backend)) (k : String) :
    lookupKey (c₁ ++ c₂) k = (lookupKey c₁ k).orElse (fun _ => lookupKey c₂ k) := by
  induction c₁ with
  | nil => rfl
  | cons p rest ih =>
    by_cases hk : (p.1 == k) = true
    · simp [lookupKey, List.find?, hk, Option.orElse]
    · simpa [lookupKey, List.find?, hk, Option.orElse] using ih

theorem lookupKey_mem {cache : List (String × Backend)} {k : String} {b : Backend}
    (h : lookupKey cache k = some b) : (k, b) ∈ cache := by
  unfold lookupKey at h
  cases hf : cache.find? (fun p => p.1 == k) with
  | none => rw [hf] at h; exact Option.noConfusion h
  | some pr =>
    rw [hf] at h
    simp only [Option.map_some', Option.some.injEq] at h
    have h1 : (pr.1 == k) = true := by
      have h' := List.find?_some hf
      simpa using h'
    have h2 : pr ∈ cache := List.mem_of_find?_eq_some hf
    have : pr = (k, b) := by
      rcases pr with ⟨pk, pb⟩
      obtain rfl : pk = k := beq_iff_eq.mp h1
      simp only at h
      rw [h]
    rwa [this] at h2

/-- Cache-hit form of `get_or_create_phonemizer`. -/
theorem get_hit {lang cleaner : String} {pid : Nat} {st : PoolState} {b : Backend}
    (h : lookupKey st.cache (processKey cleaner pid) = some b) :
    get_or_create_phonemizer lang cleaner pid st = (b, st) := by
  unfold get_or_create_phonemizer
  simp only [h]

/-- Cache-miss form of `get_or_create_phonemizer`: a new backend is
constructed from the requested language and stored under the key. -/
theorem get_miss {lang cleaner : String} {pid : Nat} {st : PoolState}
    (h : lookupKey st.cache (processKey cleaner pid) = none) :
    get_or_create_phonemizer lang cleaner pid st
      = (mkBackend st.next lang,
         { cache := st.cache ++ [(processKey cleaner pid, mkBackend st.next lang)],
           next := st.next + 1 }) := by
  unfold get_or_create_phonemizer
  simp only [h]

/-- C9: the backend-pool cache key is derived only from the cleaner name and
the process id, never from the language: a second call with the same cleaner
name and process id but any other language returns the handle of the first
call and leaves the state unchanged, and that handle carries the first call's
language when the first call was a cache miss. -/
theorem claim_C9 :
    ∀ (st : PoolState) (lang₁ lang₂ cleaner : String) (pid : Nat),
      (get_or_create_phonemizer lang₂ cleaner pid
          (get_or_create_phonemizer lang₁ cleaner pid st).2)
        = ((get_or_create_phonemizer lang₁ cleaner pid st).1,
           (get_or_create_phonemizer lang₁ cleaner pid st).2)
      ∧ (lookupKey st.cache (processKey cleaner pid) = none →
          (get_or_create_phonemizer lang₁ cleaner pid st).1.language = lang₁) := by
  intro st lang₁ lang₂ cleaner pid
  cases hl : lookupKey st.cache (processKey cleaner pid) with
  | some b =>
    have e1 := @get_hit lang₁ cleaner pid st b hl
    have e2 := @get_hit lang₂ cleaner pid st b hl
    rw [e1]
    exact ⟨e2, fun hnone => Option.noConfusion hnone⟩
  | none =>
    have e1 := @get_miss lang₁ cleaner pid st hl
    have e2 : lookupKey (st.cache ++ [(processKey cleaner pid, mkBackend st.next lang₁)])
        (processKey cleaner pid) = some (mkBackend st.next lang₁) := by
      rw [lookupKey_append, hl]
      simp [lookupKey, List.find?, Option.orElse]
    rw [e1]
    exact ⟨get_hit e2, fun _ => rfl⟩

/-- Witness for C9: in a fresh process (pid 1) on the module-initialization
state, an `english_cleaners2` call for `en-us` followed by one for `pl`
returns the `en-us` handle. -/
theorem ne_of_id_ne {b₁ b₂ : Backend} (h : b₁.id ≠ b₂.id) : b₁ ≠ b₂ :=
  fun he => h (congrArg Backend.id he)

/-- A cached handle's serial number stays below the next serial. -/
theorem cached_id_lt {st : PoolState} (hinv : PoolInv st) {k : String} {b : Backend}
    (h : lookupKey st.cache k = some b) : b.id < st.next :=
  hinv.1 (k, b) (lookupKey_mem h)

/-- Two hits under distinct keys in an invariant-respecting pool return
handles with distinct serial numbers. -/
theorem hit_hit_ne {st : PoolState} (hinv : PoolInv st) {k₁ k₂ : String} {b₁ b₂ : Backend}
    (h₁ : lookupKey st.cache k₁ = some b₁) (h₂ : lookupKey st.cache k₂ = some b₂)
    (hk : k₁ ≠ k₂) : b₁.id ≠ b₂.id := by
  have hm₁ := lookupKey_mem h₁
  have hm₂ := lookupKey_mem h₂
  have hsym : Symmetric (fun p q : String × Backend => p.2.id ≠ q.2.id) :=
    fun p q h => h.symm
  have hne : (k₁, b₁) ≠ (k₂, b₂) := fun he => hk (congrArg Prod.fst he)
  exact hinv.2.forall hsym hm₁ hm₂ hne

/-- C4 counterexample: the cache key ignores the language, so the first
request for a *new language* on a warm context key does not construct a new
backend.  Starting from the module-initialization pool in process 1, the
call for `("en-us", "english_cleaners2")` constructs and stores a backend;
the following first-ever call for `("pl", "english_cleaners2")` — a fresh
(language, context) pair — returns that very `en-us` handle and leaves the
pool untouched, instead of constructing and storing a Polish backend. -/
theorem claim_C4_counterexample :
    (get_or_create_phonemizer "pl" "english_cleaners2" 1
        (get_or_create_phonemizer "en-us" "english_cleaners2" 1 initPool).2).1
      = (get_or_create_phonemizer "en-us" "english_cleaners2" 1 initPool).1
    ∧ (get_or_create_phonemizer "pl" "english_cleaners2" 1
        (get_or_create_phonemizer "en-us" "english_cleaners2" 1 initPool).2).1.language
      = "en-us"
    ∧ (get_or_create_phonemizer "pl" "english_cleaners2" 1
        (get_or_create_phonemizer "en-us" "english_cleaners2" 1 initPool).2).1.language
      ≠ "pl"
    ∧ (get_or_create_phonemizer "pl" "english_cleaners2" 1
        (get_or_create_phonemizer "en-us" "english_cleaners2" 1 initPool).2).2
      = (get_or_create_phonemizer "en-us" "english_cleaners2" 1 initPool).2 := by
  refine ⟨by decide, by decide, by decide, by decide⟩

/-- C4 amended: the pool caches per `(cleaner_name, process)` context key
only.  In any pool satisfying the serial-number invariant: a first request
for an uncached context key constructs a new backend and stores it; every
subsequent request with the same context key returns the identical cached
handle (regardless of language); and two distinct context keys yield
distinct backend handles. -/
theorem claim_C4_amended :
    ∀ (st : PoolState), PoolInv st →
    ∀ (lang lang' lang'' cleaner cleaner' : String) (pid pid' : Nat),
      (lookupKey st.cache (processKey cleaner pid) = none →
        (get_or_create_phonemizer lang cleaner pid st).2.cache
          = st.cache ++ [(processKey cleaner pid, mkBackend st.next lang)])
      ∧ (get_or_create_phonemizer lang' cleaner pid
            (get_or_create_phonemizer lang cleaner pid st).2).1
          = (get_or_create_phonemizer lang cleaner pid st).1
      ∧ (processKey cleaner pid ≠ processKey cleaner' pid' →
          (get_or_create_phonemizer lang'' cleaner' pid'
              (get_or_create_phonemizer lang cleaner pid st).2).1
            ≠ (get_or_create_phonemizer lang cleaner pid st).1) := by
  intro st hinv lang lang' lang'' cleaner cleaner' pid pid'
  cases hl₁ : lookupKey st.cache (processKey cleaner pid) with
  | some b₁ =>
    have e₁ := @get_hit lang cleaner pid st b₁ hl₁
    refine ⟨fun hnone => Option.noConfusion hnone, ?_, ?_⟩
    · rw [e₁]
      exact congrArg Prod.fst (@get_hit lang' cleaner pid st b₁ hl₁)
    · intro hk
      rw [e₁]
      cases hl₂ : lookupKey st.cache (processKey cleaner' pid') with
      | some b₂ =>
        rw [@get_hit lang'' cleaner' pid' st b₂ hl₂]
        exact ne_of_id_ne (hit_hit_ne hinv hl₂ hl₁ (Ne.symm hk))
      | none =>
        rw [@get_miss lang'' cleaner' pid' st hl₂]
        exact ne_of_id_ne (Nat.ne_of_gt (cached_id_lt hinv hl₁))
  | none =>
    have e₁ := @get_miss lang cleaner pid st hl₁
    have hl₁' : lookupKey
        (st.cache ++ [(processKey cleaner pid, mkBackend st.next lang)])
        (processKey cleaner pid) = some (mkBackend st.next lang) := by
      rw [lookupKey_append, hl₁]
      simp [lookupKey, List.find?, Option.orElse]
    refine ⟨fun _ => by rw [e₁], ?_, ?_⟩
    · rw [e₁]
      exact congrArg Prod.fst (get_hit hl₁')
    · intro hk
      rw [e₁]
      have hsplit : lookupKey
          (st.cache ++ [(processKey cleaner pid, mkBackend st.next lang)])
          (processKey cleaner' pid')
          = lookupKey st.cache (processKey cleaner' pid') := by
        rw [lookupKey_append]
        have hone : lookupKey [(processKey cleaner pid, mkBackend st.next lang)]
            (processKey cleaner' pid') = none := by
          simp only [lookupKey, List.find?]
          rw [beq_eq_false_iff_ne.mpr hk]
          rfl
        rw [hone]
        cases lookupKey st.cache (processKey cleaner' pid') <;> rfl
      cases hl₂ : lookupKey st.cache (processKey cleaner' pid') with
      | some b₂ =>
        have : lookupKey
            (st.cache ++ [(processKey cleaner pid, mkBackend st.next lang)])
            (processKey cleaner' pid') = some b₂ := by rw [hsplit, hl₂]
        rw [get_hit this]
        exact ne_of_id_ne (Nat.ne_of_lt (cached_id_lt hinv hl₂))
      | none =>
        have : lookupKey
            (st.cache ++ [(processKey cleaner pid, mkBackend st.next lang)])
            (processKey cleaner' pid') = none := by rw [hsplit, hl₂]
        rw [get_miss this]
        exact ne_of_id_ne (Nat.succ_ne_self st.next)

/-- Witness for C4's amended theorem: concrete calls on the initialization
pool in process 1, with the `english_cleaners2` and `polish_cleaners`
context keys. -/
theorem claim_C4_amended_witness :
    PoolInv initPool
    ∧ ((lookupKey initPool.cache (processKey "english_cleaners2" 1) = none →
        (get_or_create_phonemizer "en-us" "english_cleaners2" 1 initPool).2.cache
          = initPool.cache
            ++ [(processKey "english_cleaners2" 1, mkBackend initPool.next "en-us")])
      ∧ (get_or_create_phonemizer "pl" "english_cleaners2" 1
            (get_or_create_phonemizer "en-us" "english_cleaners2" 1 initPool).2).1
          = (get_or_create_phonemizer "en-us" "english_cleaners2" 1 initPool).1
      ∧ (processKey "english_cleaners2" 1 ≠ processKey "polish_cleaners" 1 →
          (get_or_create_phonemizer "pl" "polish_cleaners" 1
              (get_or_create_phonemizer "en-us" "english_cleaners2" 1 initPool).2).1
            ≠ (get_or_create_phonemizer "en-us" "english_cleaners2" 1 initPool).1)) :=
  ⟨by decide,
   claim_C4_amended initPool (by decide) "en-us" "pl" "pl" "english_cleaners2"
     "polish_cleaners" 1 1⟩

theorem claim_C9_witness :
    (get_or_create_phonemizer "pl" "english_cleaners2" 1
        (get_or_create_phonemizer "en-us" "english_cleaners2" 1 initPool).2)
      = ((get_or_create_phonemizer "en-us" "english_cleaners2" 1 initPool).1,
         (get_or_create_phonemizer "en-us" "english_cleaners2" 1 initPool).2)
    ∧ (get_or_create_phonemizer "en-us" "english_cleaners2" 1 initPool).1.language = "en-us" :=
  ⟨(claim_C9 initPool "en-us" "pl" "english_cleaners2" 1).1,
   (claim_C9 initPool "en-us" "pl" "english_cleaners2" 1).2 (by decide)⟩

/-! ### Cleaner pipelines -/

/-- `lowercase(text) = text.lower()`, modelled on its ASCII case fold
(`Char.toLower`); Python's `str.lower` additionally folds non-ASCII letters,
which none of the verified properties depend on. -/
def lowercase (text : String) : String :=
  String.mk (text.data.map Char.toLower)

/-- The `_abbreviations` table: abbreviation (lowercase, to be followed by a
period) and its expansion. -/
def _abbreviations : List (String × String) := [
  ("mrs", "misess"),
  ("mr", "mister"),
  ("dr", "doctor"),
  ("st", "saint"),
  ("co", "company"),
  ("jr", "junior"),
  ("maj", "major"),
  ("gen", "general"),
  ("drs", "doctors"),
  ("rev", "reverend"),
  ("lt", "lieutenant"),
  ("hon", "honorable"),
  ("sgt", "sergeant"),
  ("capt", "captain"),
  ("esq", "esquire"),
  ("ltd", "limited"),
  ("col", "colonel"),
  ("ft", "fort")]

/-- The regex word character class `\w`, modelled on its ASCII subset
(letters, digits, underscore). -/
def isWordChar (c : Char) : Bool :=
  c.isAlphanum || c == '_'

/-- A position opens a `\b` boundary before a word character when it is the
string start or follows a non-word character. -/
def boundaryOk : Option Char → Bool
  | none => true
  | some p => !isWordChar p

/-- Case-insensitive match of `abbr` followed by a literal period at the head
of `s` (the regex is compiled with `re.IGNORECASE`). -/
def ciAbbrevMatch (abbr s : List Char) : Bool :=
  ((s.take abbr.length).map Char.toLower == abbr)
    && ((s.drop abbr.length).head? == some '.')

/-- One abbreviation substitution pass (`re.sub` of word-boundary, then the
abbreviation, then a period): scan left to right,
tracking the previously consumed character for the word-boundary test; on a
match emit the expansion and continue after the period. -/
def subAbbrevAux (abbr exp : List Char) : Nat → Option Char → List Char → List Char
  | _, _, [] => []
  | 0, _, s => s
  | fuel+1, prev, c :: rest =>
    if boundaryOk prev && ciAbbrevMatch abbr (c :: rest) then
      exp ++ subAbbrevAux abbr exp fuel (some '.') ((c :: rest).drop (abbr.length + 1))
    else
      c :: subAbbrevAux abbr exp fuel (some c) rest

/-- `expand_abbreviations(text)`: apply each abbreviation substitution in
table order. -/
def expand_abbreviations (text : String) : String :=
  _abbreviations.foldl
    (fun t p => String.mk (subAbbrevAux p.1.data p.2.data t.data.length none t.data)) text

/-- The Polish nasal-vowel post-fix:
`phonemes.replace("̃", "ʷ")` (the combining tilde, code 771, is not in
the vocabulary, so it is remapped to the unused `ʷ`). -/
def polish_nasal_remap (phonemes : String) : String :=
  pyReplace phonemes (String.mk [Char.ofNat 771]) "ʷ"

/-- `english_cleaners2(text)`.  The external collaborators are parameters:
`ph b t` models `b.phonemize([t], strip=True, njobs=1)[0]` and `unidec`
models `unidecode.unidecode`.  The pool state and process id are explicit. -/
def english_cleaners2 (ph : Backend → String → String) (unidec : String → String)
    (pid : Nat) (st : PoolState) (text : String) : String × PoolState :=
  let text₁ := handle_special_vocals text
  let text₂ := unidec text₁
  let text₃ := lowercase text₂
  let text₄ := expand_abbreviations text₃
  let r := get_or_create_phonemizer "en-us" "english_cleaners2" pid st
  let phonemes := ph r.1 text₄
  let phonemes₂ := remove_brackets phonemes
  let phonemes₃ := collapse_whitespace phonemes₂
  let phonemes₄ := restore_special_symbols_from_placeholders phonemes₃
  (phonemes₄, r.2)

/-- `polish_cleaners(text)`, with the same parameters. -/
def polish_cleaners (ph : Backend → String → String)
    (pid : Nat) (st : PoolState) (text : String) : String × PoolState :=
  let text₁ := handle_special_vocals text
  let text₂ := lowercase text₁
  let r := get_or_create_phonemizer "pl" "polish_cleaners" pid st
  let phonemes := ph r.1 text₂
  let phonemes₂ := polish_nasal_remap phonemes
  let phonemes₃ := remove_brackets phonemes₂
  let phonemes₄ := collapse_whitespace phonemes₃
  let phonemes₅ := restore_special_symbols_from_placeholders phonemes₄
  (phonemes₅, r.2)

/-- C3: each pipeline is exactly the stated composition of its steps, in
order, for every input string, every phonemizer/transliterator behavior and
every pool state: English is encode-markers, transliterate-to-ASCII,
lowercase-fold, expand-abbreviations, phonemize(en-us), remove-brackets,
collapse-whitespace, decode-markers; Polish is encode-markers,
lowercase-fold, phonemize(pl), nasal-diacritic remap, remove-brackets,
collapse-whitespace, decode-markers. -/
theorem claim_C3 :
    ∀ (ph : Backend → String → String) (unidec : String → String)
      (pid : Nat) (st : PoolState) (text : String),
      (english_cleaners2 ph unidec pid st text).1
        = restore_special_symbols_from_placeholders
            (collapse_whitespace (remove_brackets
              (ph (get_or_create_phonemizer "en-us" "english_cleaners2" pid st).1
                (expand_abbreviations (lowercase (unidec (handle_special_vocals text)))))))
      ∧ (polish_cleaners ph pid st text).1
        = restore_special_symbols_from_placeholders
            (collapse_whitespace (remove_brackets (polish_nasal_remap
              (ph (get_or_create_phonemizer "pl" "polish_cleaners" pid st).1
                (lowercase (handle_special_vocals text)))))) :=
  fun _ _ _ _ _ => ⟨rfl, rfl⟩

end Matcha
